import Mathlib

/-!
Verification of the repository's single source file,
`src/Middlewares/GDUT_RC_Library/CPP_Library/script.py`.  The script brings
the `os` module into scope and defines one function (lines 3-9):

    def rename(directory = '.'):
        for filename in os.listdir(directory):
            if filename.endswith('.h'):
                new_name = filename.replace('.h', '.hpp')
                os.rename(os.path.join(directory, filename),
                          os.path.join(directory, new_name))
            elif os.path.isdir(os.path.join(directory, filename)):
                rename(os.path.join(directory, filename))

We shallowly embed the script over an inductive model of a directory tree.
Filenames are lists of characters; a directory is a finite ordered list of
name/entry pairs (the order models the order `os.listdir` happens to return).
The `os` layer is modelled from the spec where the script leaves it implicit:
per spec section 7, an underlying call fails by raising (for example a name
collision on `os.rename`), so our `osRename` returns an error when the
destination name already exists (and when the source is absent), and the run
stops at the first error, returning the state reached so far together with
the error - exactly the exception propagation of the Python code.
Recursion depth is made explicit with a fuel parameter: `rename fuel es`
returns `none` when the nesting of directories exceeds `fuel`, which mirrors
the fact that each level of the tree costs one Python stack frame.
-/

namespace Script

/-- A filename: Python strings are modelled as lists of characters. -/
abbrev Name := List Char

/-- The suffix literal `'.h'` from line 5 of the script. -/
def dotH : Name := ['.', 'h']

/-- The suffix `'.hpp'` that renamed files end with. -/
def dotHpp : Name := ['.', 'h', 'p', 'p']

/-- Python's `filename.endswith(pat)` (line 5): `pat` is a suffix of `s`. -/
def pyEndsWith (s pat : Name) : Bool := List.isSuffixOf pat s

/-- Python's `filename.replace('.h', '.hpp')` (line 6), specialised to the
pattern `'.h'` and replacement `'.hpp'` used by the script: scan left to
right and replace every non-overlapping occurrence of `'.h'` by `'.hpp'`. -/
def replaceDotH : List Char → List Char
  | [] => []
  | [c] => [c]
  | c1 :: c2 :: rest =>
    if c1 = '.' && c2 = 'h' then '.' :: 'h' :: 'p' :: 'p' :: replaceDotH rest
    else c1 :: replaceDotH (c2 :: rest)

/-- A node of the file system: a regular file with its byte content, or a
directory with an ordered list of named children. -/
inductive FS : Type where
  | file (content : List Nat) : FS
  | dir (entries : List (Name × FS)) : FS

/-- The children of one directory, in `os.listdir` order. -/
abbrev Entries := List (Name × FS)

mutual
/-- Decidable equality of file-system nodes (spelt out because `deriving`
does not handle the nested inductive). -/
def fsDecEq : (a b : FS) → Decidable (a = b)
  | FS.file c, FS.file d =>
    match decEq c d with
    | isTrue h => isTrue (by rw [h])
    | isFalse h => isFalse (by intro hh; cases hh; exact h rfl)
  | FS.file _, FS.dir _ => isFalse (by intro hh; cases hh)
  | FS.dir _, FS.file _ => isFalse (by intro hh; cases hh)
  | FS.dir es, FS.dir fs =>
    match entriesDecEq es fs with
    | isTrue h => isTrue (by rw [h])
    | isFalse h => isFalse (by intro hh; cases hh; exact h rfl)
/-- Decidable equality of entry lists. -/
def entriesDecEq : (a b : Entries) → Decidable (a = b)
  | [], [] => isTrue rfl
  | [], _ :: _ => isFalse (by intro hh; cases hh)
  | _ :: _, [] => isFalse (by intro hh; cases hh)
  | (n, e) :: rest, (m, f) :: rest2 =>
    match decEq n m, fsDecEq e f, entriesDecEq rest rest2 with
    | isTrue h1, isTrue h2, isTrue h3 => isTrue (by rw [h1, h2, h3])
    | isFalse h1, _, _ => isFalse (by intro hh; cases hh; exact h1 rfl)
    | _, isFalse h2, _ => isFalse (by intro hh; cases hh; exact h2 rfl)
    | _, _, isFalse h3 => isFalse (by intro hh; cases hh; exact h3 rfl)
end

instance : DecidableEq FS := fsDecEq

instance : DecidableEq Entries := entriesDecEq

instance : Inhabited FS := ⟨FS.file []⟩

instance : Nonempty FS := ⟨FS.file []⟩

instance {α : Type} [DecidableEq α] : DecidableEq (Except α Entries) := fun a b =>
  match a, b with
  | Except.error e1, Except.error e2 =>
    match decEq e1 e2 with
    | isTrue h => isTrue (by rw [h])
    | isFalse h => isFalse (by intro hh; cases hh; exact h rfl)
  | Except.error _, Except.ok _ => isFalse (by intro hh; cases hh)
  | Except.ok _, Except.error _ => isFalse (by intro hh; cases hh)
  | Except.ok a1, Except.ok a2 =>
    match entriesDecEq a1 a2 with
    | isTrue h => isTrue (by rw [h])
    | isFalse h => isFalse (by intro hh; cases hh; exact h rfl)

/-- The list of names in a directory: `os.listdir(directory)` (line 4).
Python materialises this list before the `for` loop starts iterating. -/
def keys (es : Entries) : List Name := es.map Prod.fst

/-- Look a name up in a directory, first match wins (names are unique in any
file system produced by the operating system). -/
def lookup : Entries → Name → Option FS
  | [], _ => none
  | (k, v) :: rest, n => if k = n then some v else lookup rest n

/-- Replace the first entry named `old` by the same entry under the name
`new`, keeping its position: the effect of a successful `os.rename` inside
one directory. -/
def renameKey : Entries → Name → Name → Entries
  | [], _, _ => []
  | (k, v) :: rest, old, new => if k = old then (new, v) :: rest else (k, v) :: renameKey rest old new

/-- Replace the value of the first entry named `n`, keeping name and
position: the effect of the recursive call mutating a subdirectory. -/
def update : Entries → Name → FS → Entries
  | [], _, _ => []
  | (k, v) :: rest, n, e => if k = n then (n, e) :: rest else (k, v) :: update rest n e

/-- Errors an underlying `os` call can raise (spec section 7): the source of
a rename is gone, or its destination name is already taken. -/
inductive Err : Type where
  | srcMissing (name : Name) : Err
  | destExists (name : Name) : Err
deriving DecidableEq

/-- Modelled from the spec: `os.rename` (line 7) within one directory.  The
script relies on the bare OS call; per spec section 7 a name collision
raises, so renaming onto an existing name is an error (as is renaming a
missing source), otherwise the entry keeps its value and position under the
new name. -/
def osRename (es : Entries) (old new : Name) : Except Err Entries :=
  match lookup es old with
  | none => Except.error (Err.srcMissing old)
  | some _ =>
    if (lookup es new).isSome then Except.error (Err.destExists new)
    else Except.ok (renameKey es old new)

/-- The body of the `for` loop (lines 4-9) over the remaining snapshot of
`os.listdir` names, threading the current directory state.  `recur` is the
recursive call `rename(os.path.join(directory, filename))` of line 9.
A raised error aborts the loop at once and surfaces with the state reached
so far; `none` means the recursion-depth budget ran out inside `recur`. -/
def renameLoop (recur : Entries → Option (Entries × Option Err)) :
    List Name → Entries → Option (Entries × Option Err)
  | [], es => some (es, none)
  | n :: names, es =>
    if pyEndsWith n dotH then
      match osRename es n (replaceDotH n) with
      | Except.error e => some (es, some e)
      | Except.ok es2 => renameLoop recur names es2
    else
      match lookup es n with
      | some (FS.dir sub) =>
        match recur sub with
        | none => none
        | some (sub2, some e) => some (update es n (FS.dir sub2), some e)
        | some (sub2, none) => renameLoop recur names (update es n (FS.dir sub2))
      | _ => renameLoop recur names es

/-- The function `rename` of the script (lines 3-9), applied to the entries
of the target directory, with an explicit recursion-depth budget: descending
into one subdirectory costs one unit of fuel.  The result is `none` when the
budget is exhausted, and otherwise the final entries of the target directory
together with the error that aborted the run, if any. -/
def rename : Nat → Entries → Option (Entries × Option Err)
  | 0, _ => none
  | fuel + 1, es => renameLoop (rename fuel) (keys es) es

/-- The new name an entry gets in one pass: names ending in `'.h'` are fed
through `replace`, all other names are kept. -/
def specName (n : Name) : Name := if pyEndsWith n dotH then replaceDotH n else n

mutual
/-- Reference one-pass depth-first walk, written from the spec's description
of the operation ("a depth-first directory walk with a suffix check") with
the suffix check tested before the directory test, as in lines 5-9 of the
source: an entry whose name ends in `'.h'` - file or directory - is renamed
and kept otherwise intact, any other directory entry is walked recursively,
and any other file is untouched. -/
def pureRenameFS : FS → FS
  | FS.file c => FS.file c
  | FS.dir es => FS.dir (pureRenameEntries es)
/-- The reference walk over the children of one directory, in listing
order. -/
def pureRenameEntries : Entries → Entries
  | [] => []
  | (n, e) :: rest =>
    (if pyEndsWith n dotH then (replaceDotH n, e)
     else (n, pureRenameFS e)) :: pureRenameEntries rest
end

mutual
/-- The walk claim C7 describes, written from the claim's words: entries are
processed in listing order, every subdirectory's subtree is fully processed
on encounter, and the suffix check renames files ending in `'.h'`. -/
def claimWalkFS : FS → FS
  | FS.file c => FS.file c
  | FS.dir es => FS.dir (claimWalkEntries es)
/-- The claimed walk on a single named entry: a subdirectory is walked, a
file has the suffix check applied to its name. -/
def claimWalkEntry (n : Name) : FS → Name × FS
  | FS.dir sub => (n, FS.dir (claimWalkEntries sub))
  | FS.file c => ((if pyEndsWith n dotH then replaceDotH n else n), FS.file c)
/-- The claimed walk over the children of one directory. -/
def claimWalkEntries : Entries → Entries
  | [] => []
  | (n, e) :: rest => claimWalkEntry n e :: claimWalkEntries rest
end

mutual
/-- Height of a node: directory-nesting depth below it (a file has height
zero). -/
def heightFS : FS → Nat
  | FS.file _ => 0
  | FS.dir es => heightE es + 1
/-- Height of a directory's children: the largest child height. -/
def heightE : Entries → Nat
  | [] => 0
  | (_, e) :: rest => max (heightFS e) (heightE rest)
end

mutual
/-- Well-formedness of a node: every directory of the tree has pairwise
distinct child names, the invariant every real file system guarantees. -/
def wfFS : FS → Bool
  | FS.file _ => true
  | FS.dir es => wfE es
/-- Well-formedness of a directory's children. -/
def wfE : Entries → Bool
  | [] => true
  | (n, e) :: rest => (lookup rest n).isNone && wfFS e && wfE rest
end

mutual
/-- The contents of all files below a node, in depth-first listing order. -/
def contentsFS : FS → List (List Nat)
  | FS.file c => [c]
  | FS.dir es => contentsE es
/-- The contents of all files below a directory's children, in order. -/
def contentsE : Entries → List (List Nat)
  | [] => []
  | (_, e) :: rest => contentsFS e ++ contentsE rest
end

mutual
/-- No name anywhere in the tree ends in `'.h'`. -/
def noNameHFS : FS → Bool
  | FS.file _ => true
  | FS.dir es => noNameHE es
/-- No name anywhere below these children ends in `'.h'`. -/
def noNameHE : Entries → Bool
  | [] => true
  | (n, e) :: rest => !(pyEndsWith n dotH) && noNameHFS e && noNameHE rest
end

mutual
/-- No directory anywhere in the tree has a name ending in `'.h'` (file
names are unconstrained). -/
def noDirHFS : FS → Bool
  | FS.file _ => true
  | FS.dir es => noDirHE es
/-- The directory-name check on a single named entry. -/
def noDirHEntry (n : Name) : FS → Bool
  | FS.file _ => true
  | FS.dir sub => !(pyEndsWith n dotH) && noDirHE sub
/-- No directory below these children has a name ending in `'.h'`. -/
def noDirHE : Entries → Bool
  | [] => true
  | (n, e) :: rest => noDirHEntry n e && noDirHE rest
end

/-- Follow a path of names down the tree. -/
def lookupPath : FS → List Name → Option FS
  | e, [] => some e
  | e, n :: p =>
    match e with
    | FS.dir es =>
      match lookup es n with
      | some e2 => lookupPath e2 p
      | none => none
    | FS.file _ => none

/-! Basic facts about the suffix test and the replacement function. -/

theorem pyEndsWith_iff {s pat : Name} : pyEndsWith s pat = true ↔ ∃ t, s = t ++ pat := by
  unfold pyEndsWith
  rw [List.isSuffixOf_iff_suffix]
  constructor
  · rintro ⟨t, ht⟩
    exact ⟨t, ht.symm⟩
  · rintro ⟨t, ht⟩
    exact ⟨t, ht.symm⟩

theorem replaceDotH_append_dotH : ∀ t, replaceDotH (t ++ dotH) = replaceDotH t ++ dotHpp := by
  intro t
  show replaceDotH (t ++ ['.', 'h']) = replaceDotH t ++ ['.', 'h', 'p', 'p']
  induction t using replaceDotH.induct with
  | case1 => rfl
  | case2 c =>
    show replaceDotH (c :: ['.', 'h']) = [c] ++ ['.', 'h', 'p', 'p']
    rw [replaceDotH]
    have hc : (c = '.' && ('.' : Char) = 'h') = false := by simp
    rw [hc]
    simp [replaceDotH]
  | case3 c1 c2 rest h ih =>
    simp only [List.cons_append, replaceDotH, h, if_true]
    simpa using ih
  | case4 c1 c2 rest h ih =>
    simp only [List.cons_append, replaceDotH, h, if_false]
    simpa using ih

theorem replaceDotH_endsWith_dotHpp {n : Name} (h : pyEndsWith n dotH = true) :
    pyEndsWith (replaceDotH n) dotHpp = true := by
  obtain ⟨t, ht⟩ := pyEndsWith_iff.mp h
  subst ht
  rw [replaceDotH_append_dotH]
  exact pyEndsWith_iff.mpr ⟨replaceDotH t, rfl⟩

theorem not_endsWith_dotH_of_dotHpp {s : Name} (h : pyEndsWith s dotHpp = true) :
    pyEndsWith s dotH = false := by
  rw [Bool.eq_false_iff]
  intro h2
  obtain ⟨t, ht⟩ := pyEndsWith_iff.mp h
  obtain ⟨u, hu⟩ := pyEndsWith_iff.mp h2
  rw [ht] at hu
  have hr := congrArg List.reverse hu
  simp [dotH, dotHpp] at hr

theorem replaceDotH_not_endsWith_dotH {n : Name} (h : pyEndsWith n dotH = true) :
    pyEndsWith (replaceDotH n) dotH = false :=
  not_endsWith_dotH_of_dotHpp (replaceDotH_endsWith_dotHpp h)

theorem replaceDotH_ne_endsWith {n m : Name} (hn : pyEndsWith n dotH = true)
    (hm : pyEndsWith m dotH = true) : replaceDotH m ≠ n := by
  intro he
  have := replaceDotH_not_endsWith_dotH hm
  rw [he, hn] at this
  cases this

/-! Facts about the association-list operations on directory entries. -/

theorem keys_append {a b : Entries} : keys (a ++ b) = keys a ++ keys b := by
  simp [keys]

@[simp]
theorem keys_nil : keys [] = [] := rfl

@[simp]
theorem keys_cons {k : Name} {v : FS} {rest : Entries} :
    keys ((k, v) :: rest) = k :: keys rest := rfl

theorem not_mem_keys_cons {k n : Name} {v : FS} {rest : Entries}
    (h : n ∉ keys ((k, v) :: rest)) : k ≠ n ∧ n ∉ keys rest := by
  rw [keys_cons] at h
  constructor
  · intro hh
    exact h (hh ▸ List.mem_cons_self _ _)
  · intro hh
    exact h (List.mem_cons_of_mem _ hh)

theorem lookup_eq_none {es : Entries} {n : Name} : lookup es n = none ↔ n ∉ keys es := by
  induction es with
  | nil => simp [lookup, keys]
  | cons hd rest ih =>
    obtain ⟨k, v⟩ := hd
    by_cases hk : k = n
    · subst hk
      simp [lookup, keys]
    · simp [lookup, keys, hk, ih, Ne.symm hk]

theorem mem_keys_of_lookup {es : Entries} {n : Name} {e : FS} (h : lookup es n = some e) :
    n ∈ keys es := by
  by_contra hc
  have h2 := lookup_eq_none.mpr hc
  rw [h] at h2
  cases h2

theorem lookup_isSome_iff {es : Entries} {n : Name} :
    (lookup es n).isSome = true ↔ n ∈ keys es := by
  constructor
  · intro h
    cases hl : lookup es n with
    | none =>
      rw [hl] at h
      cases h
    | some e => exact mem_keys_of_lookup hl
  · intro h
    cases hl : lookup es n with
    | none => exact absurd h (lookup_eq_none.mp hl)
    | some e => rfl

theorem lookup_cons_self {rest : Entries} {n : Name} {e : FS} :
    lookup ((n, e) :: rest) n = some e := by
  simp [lookup]

theorem lookup_append_of_not_mem {pre es : Entries} {n : Name} (h : n ∉ keys pre) :
    lookup (pre ++ es) n = lookup es n := by
  induction pre with
  | nil => rfl
  | cons hd rest ih =>
    obtain ⟨k, v⟩ := hd
    obtain ⟨hk, hrest⟩ := not_mem_keys_cons h
    simp [lookup, hk, ih hrest]

theorem lookup_mem {es : Entries} {n : Name} {e : FS} (h : lookup es n = some e) :
    (n, e) ∈ es := by
  induction es with
  | nil => cases h
  | cons hd rest ih =>
    obtain ⟨k, v⟩ := hd
    by_cases hk : k = n
    · subst hk
      rw [lookup_cons_self] at h
      cases h
      exact List.mem_cons_self _ _
    · rw [lookup, if_neg hk] at h
      exact List.mem_cons_of_mem _ (ih h)

theorem renameKey_cons_self {rest : Entries} {n new : Name} {e : FS} :
    renameKey ((n, e) :: rest) n new = (new, e) :: rest := by
  simp [renameKey]

theorem renameKey_append {pre es : Entries} {old new : Name} (h : old ∉ keys pre) :
    renameKey (pre ++ es) old new = pre ++ renameKey es old new := by
  induction pre with
  | nil => rfl
  | cons hd rest ih =>
    obtain ⟨k, v⟩ := hd
    obtain ⟨hk, hrest⟩ := not_mem_keys_cons h
    simp [renameKey, hk, ih hrest]

theorem update_cons_self {rest : Entries} {n : Name} {e w : FS} :
    update ((n, e) :: rest) n w = (n, w) :: rest := by
  simp [update]

theorem update_append {pre es : Entries} {n : Name} {w : FS} (h : n ∉ keys pre) :
    update (pre ++ es) n w = pre ++ update es n w := by
  induction pre with
  | nil => rfl
  | cons hd rest ih =>
    obtain ⟨k, v⟩ := hd
    obtain ⟨hk, hrest⟩ := not_mem_keys_cons h
    simp [update, hk, ih hrest]

theorem update_self {es : Entries} {n : Name} {v : FS} (h : lookup es n = some v) :
    update es n v = es := by
  induction es with
  | nil => rfl
  | cons hd rest ih =>
    obtain ⟨k, w⟩ := hd
    by_cases hk : k = n
    · subst hk
      rw [lookup_cons_self] at h
      cases h
      simp [update]
    · rw [lookup, if_neg hk] at h
      simp [update, hk, ih h]

theorem keys_update {es : Entries} {n : Name} {w : FS} : keys (update es n w) = keys es := by
  induction es with
  | nil => rfl
  | cons hd rest ih =>
    obtain ⟨k, v⟩ := hd
    by_cases hk : k = n
    · subst hk
      rw [update_cons_self, keys_cons, keys_cons]
    · rw [update, if_neg hk, keys_cons, keys_cons, ih]

theorem mem_renameKey_of_ne {es : Entries} {old new m : Name} {v : FS}
    (h : (m, v) ∈ es) (hm : m ≠ old) : (m, v) ∈ renameKey es old new := by
  induction es with
  | nil => cases h
  | cons hd rest ih =>
    obtain ⟨k, w⟩ := hd
    by_cases hk : k = old
    · subst hk
      rw [renameKey_cons_self]
      rcases List.mem_cons.mp h with h1 | h1
      · cases h1
        exact absurd rfl hm
      · exact List.mem_cons_of_mem _ h1
    · rw [renameKey, if_neg hk]
      rcases List.mem_cons.mp h with h1 | h1
      · rw [h1]
        exact List.mem_cons_self _ _
      · exact List.mem_cons_of_mem _ (ih h1)

theorem lookup_renameKey_other {es : Entries} {old new k : Name}
    (h1 : k ≠ old) (h2 : k ≠ new) : lookup (renameKey es old new) k = lookup es k := by
  induction es with
  | nil => rfl
  | cons hd rest ih =>
    obtain ⟨k2, v⟩ := hd
    by_cases hk : k2 = old
    · subst hk
      rw [renameKey_cons_self]
      simp [lookup, Ne.symm h2, Ne.symm h1]
    · rw [renameKey, if_neg hk]
      by_cases hk2 : k2 = k
      · simp [lookup, hk2]
      · simp [lookup, hk2, ih]

theorem mem_update_of_ne {es : Entries} {n m : Name} {v w : FS}
    (h : (m, v) ∈ es) (hm : m ≠ n) : (m, v) ∈ update es n w := by
  induction es with
  | nil => cases h
  | cons hd rest ih =>
    obtain ⟨k, u⟩ := hd
    by_cases hk : k = n
    · subst hk
      rw [update_cons_self]
      rcases List.mem_cons.mp h with h1 | h1
      · cases h1
        exact absurd rfl hm
      · exact List.mem_cons_of_mem _ h1
    · rw [update, if_neg hk]
      rcases List.mem_cons.mp h with h1 | h1
      · rw [h1]
        exact List.mem_cons_self _ _
      · exact List.mem_cons_of_mem _ (ih h1)

theorem lookup_update_self {es : Entries} {n : Name} {v w : FS}
    (h : lookup es n = some v) : lookup (update es n w) n = some w := by
  induction es with
  | nil => cases h
  | cons hd rest ih =>
    obtain ⟨k, u⟩ := hd
    by_cases hk : k = n
    · subst hk
      rw [update_cons_self, lookup_cons_self]
    · rw [lookup, if_neg hk] at h
      rw [update, if_neg hk, lookup, if_neg hk]
      exact ih h

theorem lookup_update_other {es : Entries} {n k : Name} {w : FS} (h : k ≠ n) :
    lookup (update es n w) k = lookup es k := by
  induction es with
  | nil => rfl
  | cons hd rest ih =>
    obtain ⟨k2, u⟩ := hd
    by_cases hk : k2 = n
    · subst hk
      rw [update_cons_self]
      simp [lookup, Ne.symm h]
    · rw [update, if_neg hk]
      by_cases hk2 : k2 = k
      · simp [lookup, hk2]
      · simp [lookup, hk2, ih]

/-! Unfolding equations for the mutual recursive definitions. -/

@[simp]
theorem wfFS_file {c : List Nat} : wfFS (FS.file c) = true := rfl

@[simp]
theorem wfFS_dir {es : Entries} : wfFS (FS.dir es) = wfE es := rfl

@[simp]
theorem wfE_nil : wfE [] = true := rfl

@[simp]
theorem wfE_cons {n : Name} {e : FS} {rest : Entries} :
    wfE ((n, e) :: rest) = ((lookup rest n).isNone && wfFS e && wfE rest) := rfl

@[simp]
theorem heightFS_file {c : List Nat} : heightFS (FS.file c) = 0 := rfl

@[simp]
theorem heightFS_dir {es : Entries} : heightFS (FS.dir es) = heightE es + 1 := rfl

@[simp]
theorem heightE_nil : heightE [] = 0 := rfl

@[simp]
theorem heightE_cons {n : Name} {e : FS} {rest : Entries} :
    heightE ((n, e) :: rest) = max (heightFS e) (heightE rest) := rfl

@[simp]
theorem contentsFS_file {c : List Nat} : contentsFS (FS.file c) = [c] := rfl

@[simp]
theorem contentsFS_dir {es : Entries} : contentsFS (FS.dir es) = contentsE es := rfl

@[simp]
theorem contentsE_nil : contentsE [] = [] := rfl

@[simp]
theorem contentsE_cons {n : Name} {e : FS} {rest : Entries} :
    contentsE ((n, e) :: rest) = contentsFS e ++ contentsE rest := rfl

@[simp]
theorem noNameHFS_file {c : List Nat} : noNameHFS (FS.file c) = true := rfl

@[simp]
theorem noNameHFS_dir {es : Entries} : noNameHFS (FS.dir es) = noNameHE es := rfl

@[simp]
theorem noNameHE_nil : noNameHE [] = true := rfl

@[simp]
theorem noNameHE_cons {n : Name} {e : FS} {rest : Entries} :
    noNameHE ((n, e) :: rest) = (!(pyEndsWith n dotH) && noNameHFS e && noNameHE rest) := rfl

@[simp]
theorem noDirHFS_file {c : List Nat} : noDirHFS (FS.file c) = true := rfl

@[simp]
theorem noDirHFS_dir {es : Entries} : noDirHFS (FS.dir es) = noDirHE es := rfl

@[simp]
theorem noDirHE_nil : noDirHE [] = true := rfl

@[simp]
theorem noDirHE_cons {n : Name} {e : FS} {rest : Entries} :
    noDirHE ((n, e) :: rest) = (noDirHEntry n e && noDirHE rest) := rfl

@[simp]
theorem noDirHEntry_file {n : Name} {c : List Nat} : noDirHEntry n (FS.file c) = true := rfl

@[simp]
theorem noDirHEntry_dir {n : Name} {sub : Entries} :
    noDirHEntry n (FS.dir sub) = (!(pyEndsWith n dotH) && noDirHE sub) := rfl

@[simp]
theorem pureRenameFS_file {c : List Nat} : pureRenameFS (FS.file c) = FS.file c := rfl

@[simp]
theorem pureRenameFS_dir {es : Entries} :
    pureRenameFS (FS.dir es) = FS.dir (pureRenameEntries es) := rfl

@[simp]
theorem pureRenameEntries_nil : pureRenameEntries [] = [] := rfl

theorem pureRenameEntries_cons {n : Name} {e : FS} {rest : Entries} :
    pureRenameEntries ((n, e) :: rest) =
      (if pyEndsWith n dotH then (replaceDotH n, e)
       else (n, pureRenameFS e)) :: pureRenameEntries rest := rfl

/-! Facts about well-formedness, heights, and the name predicates. -/

theorem lookup_cons_eq_none {k m : Name} {v : FS} {rest : Entries} :
    lookup ((k, v) :: rest) m = none ↔ k ≠ m ∧ lookup rest m = none := by
  by_cases hk : k = m
  · subst hk
    simp [lookup]
  · simp [lookup, hk]

theorem wfE_nodup {es : Entries} (h : wfE es = true) : (keys es).Nodup := by
  induction es with
  | nil => simp
  | cons hd rest ih =>
    obtain ⟨n, e⟩ := hd
    rw [wfE_cons] at h
    simp only [Bool.and_eq_true] at h
    obtain ⟨⟨h1, h2⟩, h3⟩ := h
    rw [keys_cons]
    refine List.nodup_cons.mpr ⟨?_, ih h3⟩
    rw [← lookup_eq_none]
    exact Option.isNone_iff_eq_none.mp h1

theorem lookup_wf {es : Entries} {n : Name} {e : FS} (hwf : wfE es = true)
    (h : lookup es n = some e) : wfFS e = true := by
  induction es with
  | nil => cases h
  | cons hd rest ih =>
    obtain ⟨k, v⟩ := hd
    rw [wfE_cons] at hwf
    simp only [Bool.and_eq_true] at hwf
    obtain ⟨⟨h1, h2⟩, h3⟩ := hwf
    by_cases hk : k = n
    · subst hk
      rw [lookup_cons_self] at h
      cases h
      exact h2
    · rw [lookup, if_neg hk] at h
      exact ih h3 h

theorem mem_wf {es : Entries} {n : Name} {e : FS} (hwf : wfE es = true)
    (h : (n, e) ∈ es) : wfFS e = true := by
  induction es with
  | nil => cases h
  | cons hd rest ih =>
    obtain ⟨k, v⟩ := hd
    rw [wfE_cons] at hwf
    simp only [Bool.and_eq_true] at hwf
    obtain ⟨⟨h1, h2⟩, h3⟩ := hwf
    rcases List.mem_cons.mp h with h4 | h4
    · cases h4
      exact h2
    · exact ih h3 h4

theorem lookup_of_mem_wf {es : Entries} {n : Name} {e : FS} (hwf : wfE es = true)
    (h : (n, e) ∈ es) : lookup es n = some e := by
  induction es with
  | nil => cases h
  | cons hd rest ih =>
    obtain ⟨k, v⟩ := hd
    rw [wfE_cons] at hwf
    simp only [Bool.and_eq_true] at hwf
    obtain ⟨⟨h1, h2⟩, h3⟩ := hwf
    rcases List.mem_cons.mp h with h4 | h4
    · cases h4
      exact lookup_cons_self
    · have hk : k ≠ n := by
        intro hh
        subst hh
        have h5 : lookup rest k = some e := ih h3 h4
        rw [h5] at h1
        cases h1
      rw [lookup, if_neg hk]
      exact ih h3 h4

theorem wf_renameKey {es : Entries} {old new : Name} (hwf : wfE es = true)
    (hnew : lookup es new = none) : wfE (renameKey es old new) = true := by
  induction es with
  | nil => exact hwf
  | cons hd rest ih =>
    obtain ⟨k, v⟩ := hd
    rw [wfE_cons] at hwf
    simp only [Bool.and_eq_true] at hwf
    obtain ⟨⟨h1, h2⟩, h3⟩ := hwf
    obtain ⟨hknew, hrestnew⟩ := lookup_cons_eq_none.mp hnew
    by_cases hk : k = old
    · subst hk
      rw [renameKey_cons_self, wfE_cons]
      simp only [Bool.and_eq_true]
      exact ⟨⟨by rw [hrestnew]; rfl, h2⟩, h3⟩
    · rw [renameKey, if_neg hk, wfE_cons]
      simp only [Bool.and_eq_true]
      refine ⟨⟨?_, h2⟩, ih h3 hrestnew⟩
      by_cases hko : k = old
      · exact absurd hko hk
      · rw [lookup_renameKey_other hko hknew]
        exact h1

theorem wf_update {es : Entries} {n : Name} {w : FS} (hwf : wfE es = true)
    (hw : wfFS w = true) : wfE (update es n w) = true := by
  induction es with
  | nil => exact hwf
  | cons hd rest ih =>
    obtain ⟨k, v⟩ := hd
    rw [wfE_cons] at hwf
    simp only [Bool.and_eq_true] at hwf
    obtain ⟨⟨h1, h2⟩, h3⟩ := hwf
    by_cases hk : k = n
    · subst hk
      rw [update_cons_self, wfE_cons]
      simp only [Bool.and_eq_true]
      exact ⟨⟨h1, hw⟩, h3⟩
    · rw [update, if_neg hk, wfE_cons]
      simp only [Bool.and_eq_true]
      refine ⟨⟨?_, h2⟩, ih h3⟩
      have hkn : k ≠ n := hk
      rw [lookup_update_other (Ne.symm ?_)]
      · exact h1
      · exact fun hh => hkn hh.symm

theorem mem_height {es : Entries} {n : Name} {e : FS} (h : (n, e) ∈ es) :
    heightFS e ≤ heightE es := by
  induction es with
  | nil => cases h
  | cons hd rest ih =>
    obtain ⟨k, v⟩ := hd
    rw [heightE_cons]
    rcases List.mem_cons.mp h with h1 | h1
    · cases h1
      exact le_max_left _ _
    · exact le_trans (ih h1) (le_max_right _ _)

theorem lookup_height {es : Entries} {n : Name} {e : FS} (h : lookup es n = some e) :
    heightFS e ≤ heightE es :=
  mem_height (lookup_mem h)

theorem mem_noNameH {es : Entries} {n : Name} {e : FS} (hh : noNameHE es = true)
    (h : (n, e) ∈ es) : pyEndsWith n dotH = false ∧ noNameHFS e = true := by
  induction es with
  | nil => cases h
  | cons hd rest ih =>
    obtain ⟨k, v⟩ := hd
    rw [noNameHE_cons] at hh
    simp only [Bool.and_eq_true, Bool.not_eq_true'] at hh
    obtain ⟨⟨h1, h2⟩, h3⟩ := hh
    rcases List.mem_cons.mp h with h4 | h4
    · cases h4
      exact ⟨h1, h2⟩
    · exact ih h3 h4

theorem keys_noNameH {es : Entries} {n : Name} (hh : noNameHE es = true)
    (h : n ∈ keys es) : pyEndsWith n dotH = false := by
  obtain ⟨⟨m, e⟩, hmem, heq⟩ := List.mem_map.mp h
  cases heq
  exact (mem_noNameH hh hmem).1

theorem lookup_noNameH {es : Entries} {n : Name} {e : FS} (hh : noNameHE es = true)
    (h : lookup es n = some e) : noNameHFS e = true :=
  (mem_noNameH hh (lookup_mem h)).2

/-! File contents are never read or written: the in-order list of file
contents is invariant under every run, even one aborted by an error. -/

theorem osRename_ok {es es2 : Entries} {old new : Name}
    (h : osRename es old new = Except.ok es2) :
    es2 = renameKey es old new ∧ lookup es new = none ∧ ∃ v, lookup es old = some v := by
  unfold osRename at h
  cases hl : lookup es old with
  | none =>
    rw [hl] at h
    cases h
  | some v =>
    rw [hl] at h
    by_cases hs : (lookup es new).isSome = true
    · rw [if_pos hs] at h
      cases h
    · rw [if_neg hs] at h
      cases h
      refine ⟨rfl, ?_, v, rfl⟩
      cases hn : lookup es new with
      | none => rfl
      | some w =>
        rw [hn] at hs
        exact absurd rfl hs

theorem contentsE_renameKey {es : Entries} {old new : Name} :
    contentsE (renameKey es old new) = contentsE es := by
  induction es with
  | nil => rfl
  | cons hd rest ih =>
    obtain ⟨k, v⟩ := hd
    by_cases hk : k = old
    · subst hk
      rw [renameKey_cons_self, contentsE_cons, contentsE_cons]
    · rw [renameKey, if_neg hk, contentsE_cons, contentsE_cons, ih]

theorem contentsE_update_of_lookup {es : Entries} {n : Name} {v w : FS}
    (h : lookup es n = some v) (hc : contentsFS w = contentsFS v) :
    contentsE (update es n w) = contentsE es := by
  induction es with
  | nil => rfl
  | cons hd rest ih =>
    obtain ⟨k, u⟩ := hd
    by_cases hk : k = n
    · subst hk
      rw [lookup_cons_self] at h
      cases h
      rw [update_cons_self, contentsE_cons, contentsE_cons, hc]
    · rw [lookup, if_neg hk] at h
      rw [update, if_neg hk, contentsE_cons, contentsE_cons, ih h]

theorem renameLoop_contents (recur : Entries → Option (Entries × Option Err))
    (hrec : ∀ sub out err, recur sub = some (out, err) → contentsE out = contentsE sub) :
    ∀ names es out err, renameLoop recur names es = some (out, err) →
      contentsE out = contentsE es := by
  intro names
  induction names with
  | nil =>
    intro es out err h
    rw [renameLoop] at h
    cases h
    rfl
  | cons n names ih =>
    intro es out err h
    rw [renameLoop] at h
    split at h
    · cases ho : osRename es n (replaceDotH n) with
      | error e =>
        rw [ho] at h
        cases h
        rfl
      | ok es2 =>
        rw [ho] at h
        obtain ⟨hes2, _, _⟩ := osRename_ok ho
        subst hes2
        rw [ih _ _ _ h, contentsE_renameKey]
    · split at h
      · rename_i sub hl
        split at h
        · cases h
        · rename_i sub2 e2 hr
          cases h
          have hsub : contentsE sub2 = contentsE sub := hrec sub sub2 (some e2) hr
          exact contentsE_update_of_lookup hl (by simpa using hsub)
        · rename_i sub2 hr
          have hsub : contentsE sub2 = contentsE sub := hrec sub sub2 none hr
          rw [ih _ _ _ h]
          exact contentsE_update_of_lookup hl (by simpa using hsub)
      · exact ih _ _ _ h

theorem rename_contents {fuel : Nat} {es out : Entries} {err : Option Err}
    (h : rename fuel es = some (out, err)) : contentsE out = contentsE es := by
  induction fuel generalizing es out err with
  | zero => cases h
  | succ fuel ih =>
    rw [rename] at h
    exact renameLoop_contents (rename fuel) (fun sub o e hh => ih hh) (keys es) es out err h

/-! Every run preserves well-formedness of the directory tree. -/

theorem renameLoop_wf (recur : Entries → Option (Entries × Option Err))
    (hrec : ∀ sub out err, recur sub = some (out, err) → wfE sub = true → wfE out = true) :
    ∀ names es out err, renameLoop recur names es = some (out, err) → wfE es = true →
      wfE out = true := by
  intro names
  induction names with
  | nil =>
    intro es out err h hwf
    rw [renameLoop] at h
    cases h
    exact hwf
  | cons n names ih =>
    intro es out err h hwf
    rw [renameLoop] at h
    split at h
    · cases ho : osRename es n (replaceDotH n) with
      | error e =>
        rw [ho] at h
        cases h
        exact hwf
      | ok es2 =>
        rw [ho] at h
        obtain ⟨hes2, hfresh, _⟩ := osRename_ok ho
        subst hes2
        exact ih _ _ _ h (wf_renameKey hwf hfresh)
    · split at h
      · rename_i sub hl
        have hsub : wfE sub = true := by
          have := lookup_wf hwf hl
          simpa using this
        split at h
        · cases h
        · rename_i sub2 e2 hr
          cases h
          exact wf_update hwf (by simpa using hrec sub sub2 (some e2) hr hsub)
        · rename_i sub2 hr
          exact ih _ _ _ h (wf_update hwf (by simpa using hrec sub sub2 none hr hsub))
      · exact ih _ _ _ h hwf

theorem rename_wf {fuel : Nat} {es out : Entries} {err : Option Err}
    (h : rename fuel es = some (out, err)) (hwf : wfE es = true) : wfE out = true := by
  induction fuel generalizing es out err with
  | zero => cases h
  | succ fuel ih =>
    rw [rename] at h
    exact renameLoop_wf (rename fuel) (fun sub o e hh hw => ih hh hw) (keys es) es out err h hwf

/-! A run over a tree in which no name ends in `'.h'` changes nothing and
raises nothing. -/

theorem renameLoop_id (recur : Entries → Option (Entries × Option Err)) (es : Entries)
    (hrec : ∀ n sub, lookup es n = some (FS.dir sub) → recur sub = some (sub, none)) :
    ∀ names, (∀ n, n ∈ names → pyEndsWith n dotH = false) →
      renameLoop recur names es = some (es, none) := by
  intro names
  induction names with
  | nil =>
    intro _
    rw [renameLoop]
  | cons n names ih =>
    intro hnames
    have hn : pyEndsWith n dotH = false := hnames n (List.mem_cons_self _ _)
    rw [renameLoop, if_neg (by simp [hn])]
    have htail : ∀ m, m ∈ names → pyEndsWith m dotH = false :=
      fun m hm => hnames m (List.mem_cons_of_mem _ hm)
    cases hl : lookup es n with
    | none =>
      simp only [hl]
      exact ih htail
    | some e =>
      cases e with
      | file c =>
        simp only [hl]
        exact ih htail
      | dir sub =>
        simp only [hl, hrec n sub hl]
        rw [update_self hl]
        exact ih htail

theorem rename_id {fuel : Nat} {es : Entries} (hnn : noNameHE es = true)
    (hfuel : heightE es < fuel) : rename fuel es = some (es, none) := by
  induction fuel generalizing es with
  | zero => omega
  | succ fuel ih =>
    rw [rename]
    apply renameLoop_id
    · intro n sub hl
      have h2 : noNameHE sub = true := by simpa using lookup_noNameH hnn hl
      have h3 := lookup_height hl
      rw [heightFS_dir] at h3
      exact ih h2 (by omega)
    · intro n hn
      exact keys_noNameH hnn hn

/-! The reference walk turns a tree with no `'.h'`-named directory into a
tree with no `'.h'`-ending name at all. -/

mutual
theorem pureRenameFS_noNameH : ∀ e, noDirHFS e = true → noNameHFS (pureRenameFS e) = true
  | FS.file _ => fun _ => rfl
  | FS.dir es => fun h => by
    rw [pureRenameFS_dir, noNameHFS_dir]
    exact pureRenameEntries_noNameH es (by simpa using h)
theorem pureRenameEntries_noNameH :
    ∀ es, noDirHE es = true → noNameHE (pureRenameEntries es) = true
  | [] => fun _ => rfl
  | (n, e) :: rest => fun h => by
    rw [noDirHE_cons, Bool.and_eq_true] at h
    obtain ⟨h1, h2⟩ := h
    rw [pureRenameEntries_cons]
    cases hn : pyEndsWith n dotH with
    | true =>
      cases e with
      | dir sub =>
        rw [noDirHEntry_dir, hn] at h1
        cases h1
      | file c =>
        rw [if_pos rfl, noNameHE_cons]
        simp only [Bool.and_eq_true, Bool.not_eq_true']
        exact ⟨⟨replaceDotH_not_endsWith_dotH hn, rfl⟩, pureRenameEntries_noNameH rest h2⟩
    | false =>
      rw [if_neg (by simp), noNameHE_cons]
      simp only [Bool.and_eq_true, Bool.not_eq_true']
      refine ⟨⟨hn, ?_⟩, pureRenameEntries_noNameH rest h2⟩
      apply pureRenameFS_noNameH
      cases e with
      | file c => rfl
      | dir sub =>
        rw [noDirHEntry_dir, Bool.and_eq_true] at h1
        simpa using h1.2
end

/-! A run that completes without error computes exactly the reference
depth-first walk.  The proof walks the loop with the already-processed
prefix of the directory made explicit. -/

theorem keys_split_shape {pre rest : Entries} {n : Name} {v : FS} :
    keys ((pre ++ [(n, v)]) ++ rest) = keys pre ++ n :: keys rest := by
  rw [keys_append, keys_append, keys_cons, keys_nil]
  simp

theorem nodup_rename_middle {pre rest : Entries} {n n2 : Name}
    (hnd : (keys pre ++ n :: keys rest).Nodup) (hn2 : n2 ∉ keys pre ++ n :: keys rest) :
    (keys pre ++ n2 :: keys rest).Nodup := by
  rw [List.nodup_middle] at hnd ⊢
  rw [List.nodup_cons] at hnd ⊢
  obtain ⟨h1, h2⟩ := hnd
  refine ⟨?_, h2⟩
  intro hh
  rcases List.mem_append.mp hh with h3 | h3
  · exact hn2 (List.mem_append_left _ h3)
  · exact hn2 (List.mem_append_right _ (List.mem_cons_of_mem _ h3))

theorem renameLoop_spec (recur : Entries → Option (Entries × Option Err))
    (hrec : ∀ sub out, wfE sub = true → recur sub = some (out, none) →
      out = pureRenameEntries sub) :
    ∀ es pre out, (keys (pre ++ es)).Nodup → wfE es = true →
      renameLoop recur (keys es) (pre ++ es) = some (out, none) →
      out = pre ++ pureRenameEntries es := by
  intro es
  induction es with
  | nil =>
    intro pre out hnd hwf h
    rw [keys_nil, renameLoop] at h
    cases h
    simp
  | cons hd rest ih =>
    obtain ⟨n, e⟩ := hd
    intro pre out hnd hwf h
    have hkeys : keys (pre ++ (n, e) :: rest) = keys pre ++ n :: keys rest := by
      rw [keys_append, keys_cons]
    rw [hkeys] at hnd
    have hnotin : n ∉ keys pre ++ keys rest :=
      (List.nodup_cons.mp (List.nodup_middle.mp hnd)).1
    have hnpre : n ∉ keys pre := fun hh => hnotin (List.mem_append_left _ hh)
    rw [wfE_cons] at hwf
    simp only [Bool.and_eq_true] at hwf
    obtain ⟨⟨hw1, hw2⟩, hw3⟩ := hwf
    have hln : lookup (pre ++ (n, e) :: rest) n = some e := by
      rw [lookup_append_of_not_mem hnpre, lookup_cons_self]
    rw [keys_cons, renameLoop] at h
    split at h
    · rename_i hn
      cases ho : osRename (pre ++ (n, e) :: rest) n (replaceDotH n) with
      | error e2 =>
        rw [ho] at h
        simp at h
      | ok es2 =>
        rw [ho] at h
        obtain ⟨hes2, hfresh, _⟩ := osRename_ok ho
        subst hes2
        have hrk : renameKey (pre ++ (n, e) :: rest) n (replaceDotH n)
            = (pre ++ [(replaceDotH n, e)]) ++ rest := by
          rw [renameKey_append hnpre, renameKey_cons_self]
          simp
        rw [hrk] at h
        have hn2free : replaceDotH n ∉ keys pre ++ n :: keys rest := by
          have := lookup_eq_none.mp hfresh
          rw [hkeys] at this
          exact this
        have hnd2 : (keys ((pre ++ [(replaceDotH n, e)]) ++ rest)).Nodup := by
          rw [keys_split_shape]
          exact nodup_rename_middle hnd hn2free
        have h2 := ih (pre ++ [(replaceDotH n, e)]) out hnd2 hw3 h
        rw [h2, pureRenameEntries_cons, if_pos hn]
        simp
    · rename_i hn
      split at h
      · rename_i sub hl2
        rw [hln] at hl2
        injection hl2 with he
        subst he
        have hsubwf : wfE sub = true := by simpa using hw2
        split at h
        · cases h
        · rename_i sub2 e2 hr
          simp at h
        · rename_i sub2 hr
          have hsub2 : sub2 = pureRenameEntries sub := hrec sub sub2 hsubwf hr
          subst hsub2
          have hupd : update (pre ++ (n, FS.dir sub) :: rest) n
              (FS.dir (pureRenameEntries sub))
              = (pre ++ [(n, FS.dir (pureRenameEntries sub))]) ++ rest := by
            rw [update_append hnpre, update_cons_self]
            simp
          rw [hupd] at h
          have hnd2 : (keys ((pre ++ [(n, FS.dir (pureRenameEntries sub))]) ++ rest)).Nodup := by
            rw [keys_split_shape]
            exact hnd
          have h2 := ih (pre ++ [(n, FS.dir (pureRenameEntries sub))]) out hnd2 hw3 h
          rw [h2, pureRenameEntries_cons, if_neg hn]
          simp
      · rename_i hother
        cases e with
        | dir sub => exact absurd hln (hother sub)
        | file c =>
          have happ : pre ++ (n, FS.file c) :: rest = (pre ++ [(n, FS.file c)]) ++ rest := by
            simp
          rw [happ] at h
          have hnd2 : (keys ((pre ++ [(n, FS.file c)]) ++ rest)).Nodup := by
            rw [keys_split_shape]
            exact hnd
          have h2 := ih (pre ++ [(n, FS.file c)]) out hnd2 hw3 h
          rw [h2, pureRenameEntries_cons, if_neg hn]
          simp

theorem rename_spec {fuel : Nat} {es out : Entries} (hwf : wfE es = true)
    (h : rename fuel es = some (out, none)) : out = pureRenameEntries es := by
  induction fuel generalizing es out with
  | zero => cases h
  | succ fuel ih =>
    rw [rename] at h
    have h2 := renameLoop_spec (rename fuel) (fun sub o hw hh => ih hw hh) es [] out
      (by simpa using wfE_nodup hwf) hwf (by simpa using h)
    simpa using h2

/-! On a well-formed tree the run never exhausts a fuel budget larger than
the height of the tree: the recursion depth is bounded by the nesting depth
of directories. -/

theorem renameLoop_total (recur : Entries → Option (Entries × Option Err)) :
    ∀ es pre, (keys (pre ++ es)).Nodup →
      (∀ n sub, (n, FS.dir sub) ∈ es → (recur sub).isSome = true) →
      (renameLoop recur (keys es) (pre ++ es)).isSome = true := by
  intro es
  induction es with
  | nil =>
    intro pre hnd hrec
    rw [keys_nil, renameLoop]
    rfl
  | cons hd rest ih =>
    obtain ⟨n, e⟩ := hd
    intro pre hnd hrec
    have hkeys : keys (pre ++ (n, e) :: rest) = keys pre ++ n :: keys rest := by
      rw [keys_append, keys_cons]
    rw [hkeys] at hnd
    have hnotin : n ∉ keys pre ++ keys rest :=
      (List.nodup_cons.mp (List.nodup_middle.mp hnd)).1
    have hnpre : n ∉ keys pre := fun hh => hnotin (List.mem_append_left _ hh)
    have hln : lookup (pre ++ (n, e) :: rest) n = some e := by
      rw [lookup_append_of_not_mem hnpre, lookup_cons_self]
    have hrecrest : ∀ m sub, (m, FS.dir sub) ∈ rest → (recur sub).isSome = true :=
      fun m sub hm => hrec m sub (List.mem_cons_of_mem _ hm)
    rw [keys_cons, renameLoop]
    by_cases hn : pyEndsWith n dotH = true
    · rw [if_pos hn]
      cases ho : osRename (pre ++ (n, e) :: rest) n (replaceDotH n) with
      | error e2 => rfl
      | ok es2 =>
        obtain ⟨hes2, hfresh, _⟩ := osRename_ok ho
        subst hes2
        have hrk : renameKey (pre ++ (n, e) :: rest) n (replaceDotH n)
            = (pre ++ [(replaceDotH n, e)]) ++ rest := by
          rw [renameKey_append hnpre, renameKey_cons_self]
          simp
        rw [hrk]
        have hn2free : replaceDotH n ∉ keys pre ++ n :: keys rest := by
          have := lookup_eq_none.mp hfresh
          rw [hkeys] at this
          exact this
        have hnd2 : (keys ((pre ++ [(replaceDotH n, e)]) ++ rest)).Nodup := by
          rw [keys_split_shape]
          exact nodup_rename_middle hnd hn2free
        exact ih (pre ++ [(replaceDotH n, e)]) hnd2 hrecrest
    · rw [if_neg hn]
      cases e with
      | dir sub =>
        simp only [hln]
        have hs := hrec n sub (List.mem_cons_self _ _)
        cases hr : recur sub with
        | none =>
          rw [hr] at hs
          cases hs
        | some p =>
          obtain ⟨sub2, err2⟩ := p
          cases err2 with
          | some e2 => rfl
          | none =>
            have hupd : update (pre ++ (n, FS.dir sub) :: rest) n (FS.dir sub2)
                = (pre ++ [(n, FS.dir sub2)]) ++ rest := by
              rw [update_append hnpre, update_cons_self]
              simp
            show (renameLoop recur (keys rest)
              (update (pre ++ (n, FS.dir sub) :: rest) n (FS.dir sub2))).isSome = true
            rw [hupd]
            have hnd2 : (keys ((pre ++ [(n, FS.dir sub2)]) ++ rest)).Nodup := by
              rw [keys_split_shape]
              exact hnd
            exact ih (pre ++ [(n, FS.dir sub2)]) hnd2 hrecrest
      | file c =>
        simp only [hln]
        have happ : pre ++ (n, FS.file c) :: rest = (pre ++ [(n, FS.file c)]) ++ rest := by
          simp
        rw [happ]
        have hnd2 : (keys ((pre ++ [(n, FS.file c)]) ++ rest)).Nodup := by
          rw [keys_split_shape]
          exact hnd
        exact ih (pre ++ [(n, FS.file c)]) hnd2 hrecrest

theorem rename_total {fuel : Nat} {es : Entries} (hwf : wfE es = true)
    (hfuel : heightE es < fuel) : (rename fuel es).isSome = true := by
  induction fuel generalizing es with
  | zero => omega
  | succ fuel ih =>
    rw [rename]
    have h0 : (keys (([] : Entries) ++ es)).Nodup := by simpa using wfE_nodup hwf
    have h2 := renameLoop_total (rename fuel) es [] h0 ?_
    · simpa using h2
    · intro n sub hmem
      have hsubwf : wfE sub = true := by simpa using mem_wf hwf hmem
      have hh := mem_height hmem
      rw [heightFS_dir] at hh
      exact ih hsubwf (by omega)

/-! Files none of whose path components end in `'.h'` survive every run -
even one aborted by an error - under their original path, name and
content. -/

@[simp]
theorem lookupPath_nil {e : FS} : lookupPath e [] = some e := rfl

theorem lookupPath_cons_dir {es : Entries} {n : Name} {p : List Name} :
    lookupPath (FS.dir es) (n :: p)
      = match lookup es n with
        | some e => lookupPath e p
        | none => none := rfl

@[simp]
theorem lookupPath_cons_file {c : List Nat} {n : Name} {p : List Name} :
    lookupPath (FS.file c) (n :: p) = none := rfl

theorem lookupPath_renameKey {es : Entries} {old new : Name} {p : List Name} {c : List Nat}
    (hold : pyEndsWith old dotH = true) (hfresh : lookup es new = none)
    (hp : ∀ x ∈ p, pyEndsWith x dotH = false)
    (h : lookupPath (FS.dir es) p = some (FS.file c)) :
    lookupPath (FS.dir (renameKey es old new)) p = some (FS.file c) := by
  cases p with
  | nil =>
    rw [lookupPath_nil] at h
    injection h with h2
    cases h2
  | cons x p2 =>
    have hx : pyEndsWith x dotH = false := hp x (List.mem_cons_self _ _)
    have hxold : x ≠ old := by
      intro hh
      rw [hh, hold] at hx
      cases hx
    rw [lookupPath_cons_dir] at h
    split at h
    · rename_i e1 hle
      have hxnew : x ≠ new := by
        intro hh
        subst hh
        rw [hle] at hfresh
        cases hfresh
      rw [lookupPath_cons_dir, lookup_renameKey_other hxold hxnew, hle]
      exact h
    · cases h

theorem lookupPath_update {es sub sub2 : Entries} {n : Name} {p : List Name} {c : List Nat}
    (hl : lookup es n = some (FS.dir sub))
    (hpres : ∀ q d, (∀ x ∈ q, pyEndsWith x dotH = false) →
      lookupPath (FS.dir sub) q = some (FS.file d) →
      lookupPath (FS.dir sub2) q = some (FS.file d))
    (hp : ∀ x ∈ p, pyEndsWith x dotH = false)
    (h : lookupPath (FS.dir es) p = some (FS.file c)) :
    lookupPath (FS.dir (update es n (FS.dir sub2))) p = some (FS.file c) := by
  cases p with
  | nil =>
    rw [lookupPath_nil] at h
    injection h with h2
    cases h2
  | cons x p2 =>
    have hptail : ∀ x2 ∈ p2, pyEndsWith x2 dotH = false :=
      fun x2 hx2 => hp x2 (List.mem_cons_of_mem _ hx2)
    rw [lookupPath_cons_dir] at h
    split at h
    · rename_i e1 hle
      by_cases hxn : x = n
      · subst hxn
        rw [hle] at hl
        injection hl with h2
        subst h2
        rw [lookupPath_cons_dir, lookup_update_self hle]
        exact hpres p2 c hptail h
      · rw [lookupPath_cons_dir, lookup_update_other hxn, hle]
        exact h
    · cases h

theorem renameLoop_path (recur : Entries → Option (Entries × Option Err))
    (hrec : ∀ sub out err, recur sub = some (out, err) →
      ∀ p c, (∀ x ∈ p, pyEndsWith x dotH = false) →
        lookupPath (FS.dir sub) p = some (FS.file c) →
        lookupPath (FS.dir out) p = some (FS.file c)) :
    ∀ names es out err, renameLoop recur names es = some (out, err) →
      ∀ p c, (∀ x ∈ p, pyEndsWith x dotH = false) →
        lookupPath (FS.dir es) p = some (FS.file c) →
        lookupPath (FS.dir out) p = some (FS.file c) := by
  intro names
  induction names with
  | nil =>
    intro es out err h p c hp hlp
    rw [renameLoop] at h
    cases h
    exact hlp
  | cons n names ih =>
    intro es out err h p c hp hlp
    rw [renameLoop] at h
    split at h
    · rename_i hn
      cases ho : osRename es n (replaceDotH n) with
      | error e2 =>
        rw [ho] at h
        cases h
        exact hlp
      | ok es2 =>
        rw [ho] at h
        obtain ⟨hes2, hfresh, _⟩ := osRename_ok ho
        subst hes2
        exact ih _ _ _ h p c hp (lookupPath_renameKey hn hfresh hp hlp)
    · split at h
      · rename_i sub hl
        split at h
        · cases h
        · rename_i sub2 e2 hr
          cases h
          exact lookupPath_update hl (fun q d hq hd => hrec sub sub2 (some e2) hr q d hq hd)
            hp hlp
        · rename_i sub2 hr
          exact ih _ _ _ h p c hp
            (lookupPath_update hl (fun q d hq hd => hrec sub sub2 none hr q d hq hd) hp hlp)
      · exact ih _ _ _ h p c hp hlp

theorem rename_path {fuel : Nat} {es out : Entries} {err : Option Err}
    (h : rename fuel es = some (out, err)) :
    ∀ p c, (∀ x ∈ p, pyEndsWith x dotH = false) →
      lookupPath (FS.dir es) p = some (FS.file c) →
      lookupPath (FS.dir out) p = some (FS.file c) := by
  induction fuel generalizing es out err with
  | zero => cases h
  | succ fuel ih =>
    rw [rename] at h
    exact renameLoop_path (rename fuel) (fun sub o e hh => ih hh) (keys es) es out err h

/-! A file entry whose name does not end in `'.h'` is still present,
unchanged, in its directory after every run. -/

theorem renameLoop_mem (recur : Entries → Option (Entries × Option Err))
    (hrecwf : ∀ sub out err, recur sub = some (out, err) → wfE sub = true → wfE out = true) :
    ∀ names es out err, renameLoop recur names es = some (out, err) → wfE es = true →
      ∀ m c, pyEndsWith m dotH = false → (m, FS.file c) ∈ es → (m, FS.file c) ∈ out := by
  intro names
  induction names with
  | nil =>
    intro es out err h hwf m c hm hmem
    rw [renameLoop] at h
    cases h
    exact hmem
  | cons n names ih =>
    intro es out err h hwf m c hm hmem
    rw [renameLoop] at h
    split at h
    · rename_i hn
      cases ho : osRename es n (replaceDotH n) with
      | error e2 =>
        rw [ho] at h
        cases h
        exact hmem
      | ok es2 =>
        rw [ho] at h
        obtain ⟨hes2, hfresh, _⟩ := osRename_ok ho
        subst hes2
        have hmn : m ≠ n := by
          intro hh
          rw [hh, hn] at hm
          cases hm
        exact ih _ _ _ h (wf_renameKey hwf hfresh) m c hm (mem_renameKey_of_ne hmem hmn)
    · split at h
      · rename_i sub hl
        have hmn : m ≠ n := by
          intro hh
          subst hh
          have h2 := lookup_of_mem_wf hwf hmem
          rw [h2] at hl
          injection hl with h3
          cases h3
        have hwfsub : wfE sub = true := by simpa using lookup_wf hwf hl
        split at h
        · cases h
        · rename_i sub2 e2 hr
          cases h
          exact mem_update_of_ne hmem hmn
        · rename_i sub2 hr
          have hwf2 : wfE (update es n (FS.dir sub2)) = true :=
            wf_update hwf (by simpa using hrecwf sub sub2 none hr hwfsub)
          exact ih _ _ _ h hwf2 m c hm (mem_update_of_ne hmem hmn)
      · exact ih _ _ _ h hwf m c hm hmem

theorem rename_mem {fuel : Nat} {es out : Entries} {err : Option Err}
    (h : rename fuel es = some (out, err)) (hwf : wfE es = true) :
    ∀ m c, pyEndsWith m dotH = false → (m, FS.file c) ∈ es → (m, FS.file c) ∈ out := by
  cases fuel with
  | zero => cases h
  | succ fuel =>
    rw [rename] at h
    exact renameLoop_mem (rename fuel) (fun sub o e hh hw => rename_wf hh hw)
      (keys es) es out err h hwf

/-! Looking entries up in the image of the reference walk. -/

theorem keys_pure {es : Entries} :
    keys (pureRenameEntries es) = (keys es).map specName := by
  induction es with
  | nil => rfl
  | cons hd rest ih =>
    obtain ⟨n, e⟩ := hd
    rw [pureRenameEntries_cons]
    by_cases hn : pyEndsWith n dotH = true
    · rw [if_pos hn, keys_cons, keys_cons, List.map_cons, ih]
      simp [specName, hn]
    · rw [if_neg hn, keys_cons, keys_cons, List.map_cons, ih]
      simp only [specName, if_neg hn]

theorem mem_pure_renamed {es : Entries} {n : Name} {e : FS} (h : (n, e) ∈ es)
    (hn : pyEndsWith n dotH = true) : (replaceDotH n, e) ∈ pureRenameEntries es := by
  induction es with
  | nil => cases h
  | cons hd rest ih =>
    obtain ⟨m, em⟩ := hd
    rw [pureRenameEntries_cons]
    rcases List.mem_cons.mp h with h1 | h1
    · cases h1
      rw [if_pos hn]
      exact List.mem_cons_self _ _
    · exact List.mem_cons_of_mem _ (ih h1)

theorem lookup_pure_gone {es : Entries} {n : Name} (hn : pyEndsWith n dotH = true) :
    lookup (pureRenameEntries es) n = none := by
  induction es with
  | nil => rfl
  | cons hd rest ih =>
    obtain ⟨m, em⟩ := hd
    rw [pureRenameEntries_cons]
    by_cases hm : pyEndsWith m dotH = true
    · rw [if_pos hm, lookup, if_neg (replaceDotH_ne_endsWith hn hm), ih]
    · have hmn : m ≠ n := by
        intro hh
        rw [hh, hn] at hm
        exact hm rfl
      rw [if_neg hm, lookup, if_neg hmn, ih]

theorem lookup_pure_keep {es : Entries} {n : Name} {e : FS}
    (hnd : (keys (pureRenameEntries es)).Nodup) (hn : pyEndsWith n dotH = false)
    (h : lookup es n = some e) :
    lookup (pureRenameEntries es) n = some (pureRenameFS e) := by
  induction es with
  | nil => cases h
  | cons hd rest ih =>
    obtain ⟨m, em⟩ := hd
    rw [pureRenameEntries_cons] at hnd ⊢
    by_cases hmn : m = n
    · subst hmn
      rw [lookup_cons_self] at h
      cases h
      rw [if_neg (by simp [hn]), lookup_cons_self]
    · rw [lookup, if_neg hmn] at h
      have hin : n ∈ keys (pureRenameEntries rest) := by
        rw [keys_pure]
        have h2 : specName n = n := by simp [specName, hn]
        exact h2 ▸ List.mem_map_of_mem specName (mem_keys_of_lookup h)
      by_cases hm : pyEndsWith m dotH = true
      · rw [if_pos hm] at hnd ⊢
        rw [keys_cons] at hnd
        have hneq : replaceDotH m ≠ n := by
          intro hh
          have h3 := (List.nodup_cons.mp hnd).1
          rw [hh] at h3
          exact h3 hin
        rw [lookup, if_neg hneq]
        exact ih (List.nodup_cons.mp hnd).2 h
      · rw [if_neg hm] at hnd ⊢
        rw [keys_cons] at hnd
        rw [lookup, if_neg hmn]
        exact ih (List.nodup_cons.mp hnd).2 h

theorem lookup_pure_renamed {es : Entries} {fn : Name} {e : FS}
    (hnd : (keys (pureRenameEntries es)).Nodup) (hfn : pyEndsWith fn dotH = true)
    (h : lookup es fn = some e) :
    lookup (pureRenameEntries es) (replaceDotH fn) = some e := by
  induction es with
  | nil => cases h
  | cons hd rest ih =>
    obtain ⟨m, em⟩ := hd
    rw [pureRenameEntries_cons] at hnd ⊢
    by_cases hmn : m = fn
    · subst hmn
      rw [lookup_cons_self] at h
      cases h
      rw [if_pos hfn, lookup_cons_self]
    · rw [lookup, if_neg hmn] at h
      have hin : replaceDotH fn ∈ keys (pureRenameEntries rest) := by
        rw [keys_pure]
        have h2 : specName fn = replaceDotH fn := by simp [specName, hfn]
        exact h2 ▸ List.mem_map_of_mem specName (mem_keys_of_lookup h)
      by_cases hm : pyEndsWith m dotH = true
      · rw [if_pos hm] at hnd ⊢
        rw [keys_cons] at hnd
        have hneq : replaceDotH m ≠ replaceDotH fn := by
          intro hh
          have h3 := (List.nodup_cons.mp hnd).1
          rw [hh] at h3
          exact h3 hin
        rw [lookup, if_neg hneq]
        exact ih (List.nodup_cons.mp hnd).2 h
      · rw [if_neg hm] at hnd ⊢
        rw [keys_cons] at hnd
        have hneq : m ≠ replaceDotH fn := by
          intro hh
          have h3 := (List.nodup_cons.mp hnd).1
          rw [hh] at h3
          exact h3 hin
        rw [lookup, if_neg hneq]
        exact ih (List.nodup_cons.mp hnd).2 h

theorem lookupPath_wf {p : List Name} : ∀ {fs e : FS}, wfFS fs = true →
    lookupPath fs p = some e → wfFS e = true := by
  induction p with
  | nil =>
    intro fs e hwf h
    rw [lookupPath_nil] at h
    cases h
    exact hwf
  | cons x p2 ih =>
    intro fs e hwf h
    cases fs with
    | file c =>
      rw [lookupPath_cons_file] at h
      cases h
    | dir es =>
      rw [lookupPath_cons_dir] at h
      split at h
      · rename_i e1 hle
        exact ih (lookup_wf (by simpa using hwf) hle) h
      · cases h

theorem lookupPath_append {p q : List Name} : ∀ {fs : FS},
    lookupPath fs (p ++ q) = (lookupPath fs p).bind (fun e => lookupPath e q) := by
  induction p with
  | nil =>
    intro fs
    simp
  | cons x p2 ih =>
    intro fs
    cases fs with
    | file c => simp [lookupPath_cons_file]
    | dir es =>
      rw [List.cons_append, lookupPath_cons_dir, lookupPath_cons_dir]
      cases hle : lookup es x with
      | none => simp
      | some e1 => simpa using ih

theorem lookupPath_pure : ∀ (p : List Name) (es : Entries) (e : FS),
    wfE (pureRenameEntries es) = true → (∀ x ∈ p, pyEndsWith x dotH = false) →
    lookupPath (FS.dir es) p = some e →
    lookupPath (FS.dir (pureRenameEntries es)) p = some (pureRenameFS e) := by
  intro p
  induction p with
  | nil =>
    intro es e hw hp h
    rw [lookupPath_nil] at h ⊢
    injection h with h2
    rw [← h2]
    rfl
  | cons x p2 ih =>
    intro es e hw hp h
    have hx : pyEndsWith x dotH = false := hp x (List.mem_cons_self _ _)
    rw [lookupPath_cons_dir] at h
    split at h
    · rename_i e1 hle
      have hl2 : lookup (pureRenameEntries es) x = some (pureRenameFS e1) :=
        lookup_pure_keep (wfE_nodup hw) hx hle
      rw [lookupPath_cons_dir, hl2]
      cases e1 with
      | file c =>
        cases p2 with
        | nil =>
          rw [lookupPath_nil] at h
          injection h with h2
          rw [← h2]
          rfl
        | cons y p3 =>
          rw [lookupPath_cons_file] at h
          cases h
      | dir subes =>
        have hwsub : wfE (pureRenameEntries subes) = true := by
          have h3 := lookup_wf hw hl2
          simpa using h3
        exact ih subes e hwsub (fun x2 hx2 => hp x2 (List.mem_cons_of_mem _ hx2)) h
    · cases h

/-! The claims. -/

/-- Claim C1, counterexample.  The claim states that every file ending in
`'.h'` is renamed with only the trailing `'.h'` replaced and the old name
gone.  Both halves fail on the code: a file `a.h` inside a directory `d.h`
is not renamed at all (the directory is renamed without being entered, so
the old name survives the completed run), and a file `b.h.h` is renamed to
`b.hpp.hpp` - not to `b.h.hpp` - because `replace` substitutes every
occurrence. -/
theorem c1_counterexample :
    rename 2 [(['d', '.', 'h'], FS.dir [(['a', '.', 'h'], FS.file [])]),
              (['b', '.', 'h', '.', 'h'], FS.file [1])]
      = some ([(['d', '.', 'h', 'p', 'p'], FS.dir [(['a', '.', 'h'], FS.file [])]),
               (['b', '.', 'h', 'p', 'p', '.', 'h', 'p', 'p'], FS.file [1])], none)
    ∧ lookupPath
        (FS.dir [(['d', '.', 'h', 'p', 'p'], FS.dir [(['a', '.', 'h'], FS.file [])]),
                 (['b', '.', 'h', 'p', 'p', '.', 'h', 'p', 'p'], FS.file [1])])
        [['d', '.', 'h', 'p', 'p'], ['a', '.', 'h']] = some (FS.file [])
    ∧ lookup [(['d', '.', 'h', 'p', 'p'], FS.dir [(['a', '.', 'h'], FS.file [])]),
              (['b', '.', 'h', 'p', 'p', '.', 'h', 'p', 'p'], FS.file [1])]
        ['b', '.', 'h', '.', 'h', 'p', 'p'] = none := by
  decide

/-- Claim C1 (amended): for every file whose name ends in `'.h'` and all of
whose ancestor directories below the target have names not ending in
`'.h'`, a run that completes without error renames the file, within the
same directory, to the name with every occurrence of `'.h'` replaced by
`'.hpp'`, and the old name no longer exists there. -/
theorem c1_h_files_renamed {fuel : Nat} {es out : Entries} {anc : List Name} {fn : Name}
    {c : List Nat} (hwf : wfE es = true) (hrun : rename fuel es = some (out, none))
    (hanc : ∀ a ∈ anc, pyEndsWith a dotH = false) (hfn : pyEndsWith fn dotH = true)
    (hfile : lookupPath (FS.dir es) (anc ++ [fn]) = some (FS.file c)) :
    lookupPath (FS.dir out) (anc ++ [replaceDotH fn]) = some (FS.file c) ∧
    lookupPath (FS.dir out) (anc ++ [fn]) = none := by
  have hout : out = pureRenameEntries es := rename_spec hwf hrun
  have hwfout : wfE out = true := rename_wf hrun hwf
  subst hout
  rw [lookupPath_append] at hfile
  cases hd : lookupPath (FS.dir es) anc with
  | none =>
    rw [hd] at hfile
    cases hfile
  | some d =>
    rw [hd] at hfile
    have hfile2 : lookupPath d [fn] = some (FS.file c) := hfile
    cases d with
    | file c2 =>
      rw [lookupPath_cons_file] at hfile2
      cases hfile2
    | dir suba =>
      rw [lookupPath_cons_dir] at hfile2
      split at hfile2
      · rename_i e1 hlf
        rw [lookupPath_nil] at hfile2
        injection hfile2 with he1
        subst he1
        have hpath2 : lookupPath (FS.dir (pureRenameEntries es)) anc
            = some (pureRenameFS (FS.dir suba)) :=
          lookupPath_pure anc es (FS.dir suba) hwfout hanc hd
        have hwfsuba : wfE (pureRenameEntries suba) = true := by
          have h3 := lookupPath_wf (by simpa using hwfout) hpath2
          simpa using h3
        have hgoal1 : lookup (pureRenameEntries suba) (replaceDotH fn) = some (FS.file c) :=
          lookup_pure_renamed (wfE_nodup hwfsuba) hfn hlf
        have hgoal2 : lookup (pureRenameEntries suba) fn = none := lookup_pure_gone hfn
        constructor
        · rw [lookupPath_append, hpath2]
          show lookupPath (FS.dir (pureRenameEntries suba)) [replaceDotH fn]
            = some (FS.file c)
          rw [lookupPath_cons_dir, hgoal1]
          rfl
        · rw [lookupPath_append, hpath2]
          show lookupPath (FS.dir (pureRenameEntries suba)) [fn] = none
          rw [lookupPath_cons_dir, hgoal2]
      · cases hfile2

/-- Claim C1, witness run: a file `a.h` with content `[7]` inside the
directory `d` is renamed to `a.hpp` and the old name is gone. -/
theorem c1_witness :
    wfE [(['d'], FS.dir [(['a', '.', 'h'], FS.file [7])])] = true ∧
    (lookupPath (FS.dir [(['d'], FS.dir [(['a', '.', 'h', 'p', 'p'], FS.file [7])])])
        ([['d']] ++ [replaceDotH ['a', '.', 'h']]) = some (FS.file [7]) ∧
     lookupPath (FS.dir [(['d'], FS.dir [(['a', '.', 'h', 'p', 'p'], FS.file [7])])])
        ([['d']] ++ [['a', '.', 'h']]) = none) :=
  ⟨by decide,
   @c1_h_files_renamed 2 [(['d'], FS.dir [(['a', '.', 'h'], FS.file [7])])]
     [(['d'], FS.dir [(['a', '.', 'h', 'p', 'p'], FS.file [7])])]
     [['d']] ['a', '.', 'h'] [7]
     (by decide) (by decide) (by decide) (by decide) (by decide)⟩

/-- Claim C2 (confirmed): in any run - even one aborted by an error - a file
entry whose name does not end in `'.h'` stays in its directory with its
name and content, and a file none of whose path components end in `'.h'`
is still found, unchanged, under its original path. -/
theorem c2_non_h_files_untouched {fuel : Nat} {es out : Entries} {err : Option Err}
    (hwf : wfE es = true) (hrun : rename fuel es = some (out, err)) :
    (∀ m c, pyEndsWith m dotH = false → (m, FS.file c) ∈ es → (m, FS.file c) ∈ out) ∧
    (∀ p c, (∀ x ∈ p, pyEndsWith x dotH = false) →
      lookupPath (FS.dir es) p = some (FS.file c) →
      lookupPath (FS.dir out) p = some (FS.file c)) :=
  ⟨rename_mem hrun hwf, rename_path hrun⟩

/-- Claim C2, witness run: the file `r` (and the path `d/r`) survive a run
that renames the sibling `a.h`. -/
theorem c2_witness :
    wfE [(['r'], FS.file [3]), (['a', '.', 'h'], FS.file [4])] = true ∧
    (['r'], FS.file [3]) ∈
      ([(['r'], FS.file [3]), (['a', '.', 'h', 'p', 'p'], FS.file [4])] : Entries) ∧
    lookupPath (FS.dir [(['r'], FS.file [3]), (['a', '.', 'h', 'p', 'p'], FS.file [4])])
      [['r']] = some (FS.file [3]) :=
  ⟨by decide,
   (@c2_non_h_files_untouched 1 [(['r'], FS.file [3]), (['a', '.', 'h'], FS.file [4])]
       [(['r'], FS.file [3]), (['a', '.', 'h', 'p', 'p'], FS.file [4])] none
       (by decide) (by decide)).1 ['r'] [3] (by decide) (by decide),
   (@c2_non_h_files_untouched 1 [(['r'], FS.file [3]), (['a', '.', 'h'], FS.file [4])]
       [(['r'], FS.file [3]), (['a', '.', 'h', 'p', 'p'], FS.file [4])] none
       (by decide) (by decide)).2 [['r']] [3] (by decide) (by decide)⟩

/-- Claim C3, counterexample.  The claim states that every subdirectory at
every depth is traversed with the same rule.  A subdirectory named `s.h` is
renamed without being entered, so the file `b.h` inside it is not renamed
even though the run completes. -/
theorem c3_counterexample :
    rename 2 [(['s', '.', 'h'], FS.dir [(['b', '.', 'h'], FS.file [5])])]
      = some ([(['s', '.', 'h', 'p', 'p'], FS.dir [(['b', '.', 'h'], FS.file [5])])], none)
    ∧ lookupPath
        (FS.dir [(['s', '.', 'h', 'p', 'p'], FS.dir [(['b', '.', 'h'], FS.file [5])])])
        [['s', '.', 'h', 'p', 'p'], ['b', '.', 'h']] = some (FS.file [5])
    ∧ lookupPath
        (FS.dir [(['s', '.', 'h', 'p', 'p'], FS.dir [(['b', '.', 'h'], FS.file [5])])])
        [['s', '.', 'h', 'p', 'p'], ['b', '.', 'h', 'p', 'p']] = none := by
  decide

/-- Claim C3 (amended): every subdirectory whose own name and all of whose
ancestors' names do not end in `'.h'` is traversed recursively: after a run
that completes without error its subtree is exactly the reference one-pass
rename image of the original subtree. -/
theorem c3_subdirs_walked {fuel : Nat} {es out sub : Entries} {p : List Name}
    (hwf : wfE es = true) (hrun : rename fuel es = some (out, none))
    (hp : ∀ x ∈ p, pyEndsWith x dotH = false)
    (hdir : lookupPath (FS.dir es) p = some (FS.dir sub)) :
    lookupPath (FS.dir out) p = some (FS.dir (pureRenameEntries sub)) := by
  have hout : out = pureRenameEntries es := rename_spec hwf hrun
  have hwfout : wfE out = true := rename_wf hrun hwf
  subst hout
  have h2 := lookupPath_pure p es (FS.dir sub) hwfout hp hdir
  simpa using h2

/-- Claim C3, witness run: the subdirectory `d` is entered and its file
`a.h` is renamed. -/
theorem c3_witness :
    wfE [(['d'], FS.dir [(['a', '.', 'h'], FS.file [])])] = true ∧
    lookupPath (FS.dir [(['d'], FS.dir [(['a', '.', 'h', 'p', 'p'], FS.file [])])])
      [['d']] = some (FS.dir (pureRenameEntries [(['a', '.', 'h'], FS.file [])])) :=
  ⟨by decide,
   @c3_subdirs_walked 2 [(['d'], FS.dir [(['a', '.', 'h'], FS.file [])])]
     [(['d'], FS.dir [(['a', '.', 'h', 'p', 'p'], FS.file [])])]
     [(['a', '.', 'h'], FS.file [])] [['d']]
     (by decide) (by decide) (by decide) (by decide)⟩

/-- Claim C4, counterexample.  The claim states that running `rename` twice
produces the same final state as running it once.  On a directory `e.h`
containing `x.h` the first run renames only the directory; the second run
then enters `e.hpp` and renames `x.h`, so the state after two runs differs
from the state after one. -/
theorem c4_counterexample :
    rename 2 [(['e', '.', 'h'], FS.dir [(['x', '.', 'h'], FS.file [])])]
      = some ([(['e', '.', 'h', 'p', 'p'], FS.dir [(['x', '.', 'h'], FS.file [])])], none)
    ∧ rename 2 [(['e', '.', 'h', 'p', 'p'], FS.dir [(['x', '.', 'h'], FS.file [])])]
      = some ([(['e', '.', 'h', 'p', 'p'],
                FS.dir [(['x', '.', 'h', 'p', 'p'], FS.file [])])], none)
    ∧ ([(['e', '.', 'h', 'p', 'p'], FS.dir [(['x', '.', 'h'], FS.file [])])] : Entries)
      ≠ [(['e', '.', 'h', 'p', 'p'], FS.dir [(['x', '.', 'h', 'p', 'p'], FS.file [])])] := by
  decide

/-- Claim C4 (amended): on a tree in which no directory name ends in
`'.h'`, the operation is idempotent: after a run completes without error, a
second run with a sufficient recursion-depth budget returns the same state
unchanged and raises nothing. -/
theorem c4_idempotent_without_h_dirs {fuel fuel2 : Nat} {es out : Entries}
    (hwf : wfE es = true) (hnd : noDirHE es = true)
    (hrun : rename fuel es = some (out, none)) (hfuel2 : heightE out < fuel2) :
    rename fuel2 out = some (out, none) := by
  have hout : out = pureRenameEntries es := rename_spec hwf hrun
  have hnn : noNameHE out = true := by
    rw [hout]
    exact pureRenameEntries_noNameH es hnd
  exact rename_id hnn hfuel2

/-- Claim C4, witness run: renaming `a.h` once and running again changes
nothing. -/
theorem c4_witness :
    wfE [(['a', '.', 'h'], FS.file [])] = true ∧
    rename 1 [(['a', '.', 'h', 'p', 'p'], FS.file [])]
      = some ([(['a', '.', 'h', 'p', 'p'], FS.file [])], none) :=
  ⟨by decide,
   @c4_idempotent_without_h_dirs 1 1 [(['a', '.', 'h'], FS.file [])]
     [(['a', '.', 'h', 'p', 'p'], FS.file [])]
     (by decide) (by decide) (by decide) (by decide)⟩

/-- Claim C5 (confirmed): a run never reads or modifies file contents: the
depth-first list of file contents of the tree is unchanged by any run,
including one aborted by an error; only names change. -/
theorem c5_contents_never_change {fuel : Nat} {es out : Entries} {err : Option Err}
    (hrun : rename fuel es = some (out, err)) : contentsE out = contentsE es :=
  rename_contents hrun

/-- Claim C5, witness run. -/
theorem c5_witness :
    rename 1 [(['a', '.', 'h'], FS.file [9])]
      = some ([(['a', '.', 'h', 'p', 'p'], FS.file [9])], none) ∧
    contentsE [(['a', '.', 'h', 'p', 'p'], FS.file [9])]
      = contentsE [(['a', '.', 'h'], FS.file [9])] :=
  ⟨by decide,
   @c5_contents_never_change 1 [(['a', '.', 'h'], FS.file [9])]
     [(['a', '.', 'h', 'p', 'p'], FS.file [9])] none (by decide)⟩

/-- Claim C6 (confirmed): there is no error handling.  A raised `os.rename`
error aborts the loop at once and surfaces unchanged to the caller with the
directory state reached at that point (earlier renames stay in effect, no
retry, no rollback); an error raised inside a recursive call likewise
aborts the parent loop, keeping the partially processed subdirectory. -/
theorem c6_errors_propagate :
    (∀ (recur : Entries → Option (Entries × Option Err)) (n : Name) (names : List Name)
        (es : Entries) (e : Err), pyEndsWith n dotH = true →
        osRename es n (replaceDotH n) = Except.error e →
        renameLoop recur (n :: names) es = some (es, some e)) ∧
    (∀ (fuel : Nat) (n : Name) (names : List Name) (es sub sub2 : Entries) (e : Err),
        pyEndsWith n dotH = false → lookup es n = some (FS.dir sub) →
        rename fuel sub = some (sub2, some e) →
        renameLoop (rename fuel) (n :: names) es
          = some (update es n (FS.dir sub2), some e)) := by
  constructor
  · intro recur n names es e hn ho
    rw [renameLoop, if_pos hn, ho]
  · intro fuel n names es sub sub2 e hn hl hr
    rw [renameLoop, if_neg (by simp [hn])]
    simp only [hl, hr]

/-- Claim C6, witness run: a collision on `a.hpp` aborts the run with the
collision error; the state is kept as reached, with `b.h` already renamed
when the collision is hit one level down. -/
theorem c6_witness :
    pyEndsWith ['a', '.', 'h'] dotH = true ∧
    renameLoop (rename 0) [['a', '.', 'h']]
      [(['b', '.', 'h', 'p', 'p'], FS.file []), (['a', '.', 'h'], FS.file []),
       (['a', '.', 'h', 'p', 'p'], FS.file [])]
      = some ([(['b', '.', 'h', 'p', 'p'], FS.file []), (['a', '.', 'h'], FS.file []),
               (['a', '.', 'h', 'p', 'p'], FS.file [])],
              some (Err.destExists ['a', '.', 'h', 'p', 'p'])) ∧
    renameLoop (rename 1) [['d']]
      [(['d'], FS.dir [(['a', '.', 'h'], FS.file []), (['a', '.', 'h', 'p', 'p'], FS.file [])])]
      = some (update [(['d'], FS.dir [(['a', '.', 'h'], FS.file []),
                                      (['a', '.', 'h', 'p', 'p'], FS.file [])])]
                ['d']
                (FS.dir [(['a', '.', 'h'], FS.file []), (['a', '.', 'h', 'p', 'p'], FS.file [])]),
              some (Err.destExists ['a', '.', 'h', 'p', 'p'])) :=
  ⟨by decide,
   c6_errors_propagate.1 (rename 0) ['a', '.', 'h'] []
     [(['b', '.', 'h', 'p', 'p'], FS.file []), (['a', '.', 'h'], FS.file []),
      (['a', '.', 'h', 'p', 'p'], FS.file [])]
     (Err.destExists ['a', '.', 'h', 'p', 'p']) (by decide) (by decide),
   c6_errors_propagate.2 1 ['d'] []
     [(['d'], FS.dir [(['a', '.', 'h'], FS.file []), (['a', '.', 'h', 'p', 'p'], FS.file [])])]
     [(['a', '.', 'h'], FS.file []), (['a', '.', 'h', 'p', 'p'], FS.file [])]
     [(['a', '.', 'h'], FS.file []), (['a', '.', 'h', 'p', 'p'], FS.file [])]
     (Err.destExists ['a', '.', 'h', 'p', 'p']) (by decide) (by decide) (by decide)⟩

/-- Claim C7, counterexample.  The claim describes a depth-first walk that
fully processes every subdirectory on encounter.  The code tests the suffix
first: the subdirectory `s.h` is renamed and never entered, while the
claimed walk enters it and renames `c.h` inside, so the two disagree on a
completed run. -/
theorem c7_counterexample :
    rename 2 [(['s', '.', 'h'], FS.dir [(['c', '.', 'h'], FS.file [])])]
      = some ([(['s', '.', 'h', 'p', 'p'], FS.dir [(['c', '.', 'h'], FS.file [])])], none)
    ∧ claimWalkEntries [(['s', '.', 'h'], FS.dir [(['c', '.', 'h'], FS.file [])])]
      = [(['s', '.', 'h'], FS.dir [(['c', '.', 'h', 'p', 'p'], FS.file [])])]
    ∧ ([(['s', '.', 'h', 'p', 'p'], FS.dir [(['c', '.', 'h'], FS.file [])])] : Entries)
      ≠ [(['s', '.', 'h'], FS.dir [(['c', '.', 'h', 'p', 'p'], FS.file [])])] := by
  decide

/-- Claim C7 (amended): a run that completes without error is equal to the
reference depth-first walk in which the suffix check is tested before the
directory test: entries in listing order, an entry ending in `'.h'` is
renamed without recursion, and any other subdirectory is fully processed
before the remaining entries. -/
theorem c7_run_equals_reference_walk {fuel : Nat} {es out : Entries}
    (hwf : wfE es = true) (hrun : rename fuel es = some (out, none)) :
    out = pureRenameEntries es :=
  rename_spec hwf hrun

/-- Claim C7, witness run. -/
theorem c7_witness :
    wfE [(['d'], FS.dir [(['a', '.', 'h'], FS.file [])]), (['b', '.', 'h'], FS.file [])] = true ∧
    ([(['d'], FS.dir [(['a', '.', 'h', 'p', 'p'], FS.file [])]),
      (['b', '.', 'h', 'p', 'p'], FS.file [])] : Entries)
      = pureRenameEntries
          [(['d'], FS.dir [(['a', '.', 'h'], FS.file [])]), (['b', '.', 'h'], FS.file [])] :=
  ⟨by decide,
   @c7_run_equals_reference_walk 2
     [(['d'], FS.dir [(['a', '.', 'h'], FS.file [])]), (['b', '.', 'h'], FS.file [])]
     [(['d'], FS.dir [(['a', '.', 'h', 'p', 'p'], FS.file [])]),
      (['b', '.', 'h', 'p', 'p'], FS.file [])]
     (by decide) (by decide)⟩

/-- Claim C8 (confirmed): a directory entry whose name ends in `'.h'` is
itself renamed - the suffix check comes before the directory test - and its
subtree is not entered during that run: after a completed run the renamed
entry holds the original subtree unchanged, and the old name is gone. -/
theorem c8_h_dirs_renamed_not_recursed {fuel : Nat} {es out sub : Entries} {n : Name}
    (hwf : wfE es = true) (hrun : rename fuel es = some (out, none))
    (hmem : (n, FS.dir sub) ∈ es) (hn : pyEndsWith n dotH = true) :
    (replaceDotH n, FS.dir sub) ∈ out ∧ lookup out n = none := by
  have hout : out = pureRenameEntries es := rename_spec hwf hrun
  subst hout
  exact ⟨mem_pure_renamed hmem hn, lookup_pure_gone hn⟩

/-- Claim C8, witness run: the directory `s.h` becomes `s.hpp` with its
inner `x.h` untouched. -/
theorem c8_witness :
    wfE [(['s', '.', 'h'], FS.dir [(['x', '.', 'h'], FS.file [2])])] = true ∧
    ((replaceDotH ['s', '.', 'h'], FS.dir [(['x', '.', 'h'], FS.file [2])]) ∈
        ([(['s', '.', 'h', 'p', 'p'], FS.dir [(['x', '.', 'h'], FS.file [2])])] : Entries) ∧
     lookup [(['s', '.', 'h', 'p', 'p'], FS.dir [(['x', '.', 'h'], FS.file [2])])]
        ['s', '.', 'h'] = none) :=
  ⟨by decide,
   @c8_h_dirs_renamed_not_recursed 2
     [(['s', '.', 'h'], FS.dir [(['x', '.', 'h'], FS.file [2])])]
     [(['s', '.', 'h', 'p', 'p'], FS.dir [(['x', '.', 'h'], FS.file [2])])]
     [(['x', '.', 'h'], FS.file [2])] ['s', '.', 'h']
     (by decide) (by decide) (by decide) (by decide)⟩

/-- Claim C9 (confirmed): for every name ending in `'.h'`, the name
computed by `replace` ends in `'.hpp'` - the trailing occurrence is always
among those replaced - and in particular never retains a `'.h'` suffix. -/
theorem c9_replace_ends_hpp {n : Name} (h : pyEndsWith n dotH = true) :
    pyEndsWith (replaceDotH n) dotHpp = true ∧ pyEndsWith (replaceDotH n) dotH = false :=
  ⟨replaceDotH_endsWith_dotHpp h, replaceDotH_not_endsWith_dotH h⟩

/-- Claim C9, witness: `a.h.h` ends in `'.h'` and its replacement
`a.hpp.hpp` ends in `'.hpp'` and not in `'.h'`. -/
theorem c9_witness :
    pyEndsWith ['a', '.', 'h', '.', 'h'] dotH = true ∧
    (pyEndsWith (replaceDotH ['a', '.', 'h', '.', 'h']) dotHpp = true ∧
     pyEndsWith (replaceDotH ['a', '.', 'h', '.', 'h']) dotH = false) :=
  ⟨by decide, @c9_replace_ends_hpp ['a', '.', 'h', '.', 'h'] (by decide)⟩

/-- Claim C10 (confirmed): on every finite well-formed tree the recursion
terminates, and the recursion depth is bounded by the height of the tree:
any fuel budget exceeding the height yields a result. -/
theorem c10_terminates_within_height {fuel : Nat} {es : Entries}
    (hwf : wfE es = true) (hfuel : heightE es < fuel) :
    (rename fuel es).isSome = true :=
  rename_total hwf hfuel

/-- Claim C10, witness run on a tree of height one with fuel two. -/
theorem c10_witness :
    wfE [(['d'], FS.dir [(['a', '.', 'h'], FS.file [])])] = true ∧
    (rename 2 [(['d'], FS.dir [(['a', '.', 'h'], FS.file [])])]).isSome = true :=
  ⟨by decide,
   @c10_terminates_within_height 2 [(['d'], FS.dir [(['a', '.', 'h'], FS.file [])])]
     (by decide) (by decide)⟩

end Script
